import Mathlib

/-!
Verification of the `iterable-avl` AVL tree implementation (src/index.ts).

The embedding is a direct shallow translation of the source:
values are modelled by `JSVal`, where `JSVal.num n` is a JavaScript number
(modelling the `Comparable` keys actually used: comparison is the numeric
order) and `JSVal.obj k payload` is a non-primitive object value carrying a
key field `k` and an identifying payload.  JavaScript's relational operators
coerce an object to `NaN` (its default string form is not numeric), so any
`<` or `>` comparison involving an `obj` evaluates to `false`; `jsLt`,
`jsGt` and the strict-equality test `jsEq` encode exactly that.  The tree
functions (`createNode`/`insert`/`remove`/`get`/`minNodeValue`/`leftRotate`/
`rightRotate`/`traverse`/`traverseReversed`) mirror the source line by line;
in-place mutation of a node becomes rebuilding the node, and the source's
early `return`s become the corresponding branches.  The rotation functions in
the source dereference `node.right` (resp. `node.left`) without a guard and
throw on an absent child; the embedding returns the input unchanged on those
shapes, and the safety claim (C8) shows the rebalancing logic never reaches
them.
-/

namespace IterableAVL

/-- A JavaScript runtime value: a comparable primitive (modelled as an
integer, standing for the `Comparable = string | number | Date` keys of the
source) or a non-primitive object with a key field and a payload. -/
inductive JSVal where
  | num (n : Int)
  | obj (k : Int) (payload : Int)
deriving DecidableEq, Repr

/-- JavaScript `<`: numeric comparison on numbers; any comparison involving
an object coerces it to NaN, so the result is `false`. -/
def jsLt : JSVal → JSVal → Bool
  | .num a, .num b => a < b
  | _, _ => false

/-- JavaScript `>`: numeric comparison on numbers; `false` whenever an
object (NaN after coercion) is involved. -/
def jsGt : JSVal → JSVal → Bool
  | .num a, .num b => b < a
  | _, _ => false

/-- JavaScript strict equality `===` as used by `get` on keys: equality of
numbers; distinct objects are never strictly equal. -/
def jsEq : JSVal → JSVal → Bool
  | .num a, .num b => a == b
  | _, _ => false

/-- Whether a value is a comparable primitive (a number in the model). -/
def JSVal.isNum : JSVal → Bool
  | .num _ => true
  | .obj _ _ => false

/-- The `AVLNode<T>` type of the source: `undefined` (`nil`) or a node with
a value, two optional children and a cached `height` field. -/
inductive Tree where
  | nil
  | node (val : JSVal) (left right : Tree) (height : Nat)
deriving DecidableEq, Repr

/-- The source's `height` function: 0 for an absent node, else the cached
`height` field. -/
def hgt : Tree → Nat
  | .nil => 0
  | .node _ _ _ h => h

/-- The source's `createNode`: height cached as `1 + max(height(left),
height(right))`. -/
def createNode (v : JSVal) (l r : Tree) : Tree :=
  .node v l r (1 + max (hgt l) (hgt r))

/-- The value stored at the root (`node.val`); the source throws on an
absent node, the model returns a junk value on that unreachable shape. -/
def rootVal : Tree → JSVal
  | .nil => .num 0
  | .node v _ _ _ => v

/-- The left child of a node (`node.left`), absent for an absent node. -/
def leftChild : Tree → Tree
  | .nil => .nil
  | .node _ l _ _ => l

/-- The right child of a node (`node.right`), absent for an absent node. -/
def rightChild : Tree → Tree
  | .nil => .nil
  | .node _ _ r _ => r

/-- The source's `balanceFactor`: `height(node.left) - height(node.right)`,
and 0 for an absent node. -/
def balanceFactor : Tree → Int
  | .nil => 0
  | .node _ l r _ => (hgt l : Int) - (hgt r : Int)

/-- The source's `leftRotate`.  On the shapes where the source would throw
(absent node or absent right child) the model returns the input unchanged;
those shapes are proved unreachable from the rebalancing logic. -/
def leftRotate : Tree → Tree
  | .node v l (.node rv rl rr _) _ =>
      .node rv (.node v l rl (1 + max (hgt l) (hgt rl))) rr
        (1 + max (1 + max (hgt l) (hgt rl)) (hgt rr))
  | t => t

/-- The source's `rightRotate`, symmetric to `leftRotate`. -/
def rightRotate : Tree → Tree
  | .node v (.node lv ll lr _) r _ =>
      .node lv ll (.node v lr r (1 + max (hgt lr) (hgt r)))
        (1 + max (hgt ll) (1 + max (hgt lr) (hgt r)))
  | t => t

/-- The source's `balanceAfterInsert`: dispatches on the balance factor and,
in the unbalanced cases, on a comparison of the inserted key with the key of
the taller child's value. -/
def balanceAfterInsert (t : Tree) (inserted : JSVal) (key : JSVal → JSVal) : Tree :=
  match t with
  | .nil => .nil
  | .node v l r h =>
    if 1 < (hgt l : Int) - (hgt r : Int) then
      if jsLt (key inserted) (key (rootVal l)) then rightRotate (.node v l r h)
      else rightRotate (.node v (leftRotate l) r h)
    else if (hgt l : Int) - (hgt r : Int) < -1 then
      if jsGt (key inserted) (key (rootVal r)) then leftRotate (.node v l r h)
      else leftRotate (.node v l (rightRotate r) h)
    else .node v l r h

/-- The source's `insert`: descend by key comparison (two independent `if`s
in the source; the guards are mutually exclusive), recompute the cached
height, then rebalance. -/
def insert (t : Tree) (v : JSVal) (key : JSVal → JSVal) : Tree :=
  match t with
  | .nil => createNode v .nil .nil
  | .node nv l r _ =>
    let l' := if jsLt (key v) (key nv) then insert l v key else l
    let r' := if jsGt (key v) (key nv) then insert r v key else r
    balanceAfterInsert (.node nv l' r' (1 + max (hgt l') (hgt r'))) v key

/-- The source's `minNodeValue`: the leftmost node of a subtree (the node
itself when the left child is absent). -/
def minNodeValue : Tree → Tree
  | .nil => .nil
  | .node v .nil r h => .node v .nil r h
  | .node _ (.node lv ll lr lh) _ _ => minNodeValue (.node lv ll lr lh)

/-- The rebalancing step at the end of the source's `remove` (lines
168-189): recompute nothing here (the caller has already updated the cached
height) and dispatch on the balance factor of the node and of the taller
child. -/
def balanceAfterRemove (t : Tree) : Tree :=
  match t with
  | .nil => .nil
  | .node v l r h =>
    if 1 < (hgt l : Int) - (hgt r : Int) then
      if 0 ≤ balanceFactor l then rightRotate (.node v l r h)
      else rightRotate (.node v (leftRotate l) r h)
    else if (hgt l : Int) - (hgt r : Int) < -1 then
      if balanceFactor r ≤ 0 then leftRotate (.node v l r h)
      else leftRotate (.node v l (rightRotate r) h)
    else .node v l r h

/-- The source's `remove`.  Note the two-children case faithfully passes the
successor's value `temp.val` (not its key) as the search argument of the
recursive call, exactly as line 162 of the source does. -/
def remove (t : Tree) (sv : JSVal) (key : JSVal → JSVal) : Tree :=
  match t with
  | .nil => .nil
  | .node v l r _ =>
    if jsLt sv (key v) then
      let l' := remove l sv key
      balanceAfterRemove (.node v l' r (1 + max (hgt l') (hgt r)))
    else if jsGt sv (key v) then
      let r' := remove r sv key
      balanceAfterRemove (.node v l r' (1 + max (hgt l) (hgt r')))
    else
      match l with
      | .nil => r
      | .node _ _ _ _ =>
        match r with
        | .nil => l
        | .node _ _ _ _ =>
          let tv := rootVal (minNodeValue r)
          let r' := remove r tv key
          balanceAfterRemove (.node tv l r' (1 + max (hgt l) (hgt r')))

/-- The source's `get`: strict equality first, then descend right on `>`,
left on `<`. -/
def get (t : Tree) (keyFn : JSVal → JSVal) (k : JSVal) : Option JSVal :=
  match t with
  | .nil => none
  | .node v l r _ =>
    if jsEq k (keyFn v) then some v
    else if jsGt k (keyFn v) then get r keyFn k
    else if jsLt k (keyFn v) then get l keyFn k
    else none

/-- The source's `traverse` generator, materialised as the in-order list of
values (ascending iteration). -/
def traverse : Tree → List JSVal
  | .nil => []
  | .node v l r _ => traverse l ++ v :: traverse r

/-- The source's `traverseReversed` generator, materialised as the
reverse-in-order list of values (the `reversed` view). -/
def traverseReversed : Tree → List JSVal
  | .nil => []
  | .node v l r _ => traverseReversed r ++ v :: traverseReversed l

/-- The identity key function the constructor defaults to (`(x) => x`). -/
def jsId : JSVal → JSVal := fun v => v

/-- An argument to the `AVLTree` constructor: a key function or an iterable
of items (materialised as a list in iteration order). -/
inductive CtorArg where
  | keyfn (f : JSVal → JSVal)
  | items (xs : List JSVal)

/-- The constructor's `typeof args[i] === "function"` test, returning the
function when the (optional) argument is one. -/
def argIsFn : Option CtorArg → Option (JSVal → JSVal)
  | some (.keyfn f) => some f
  | _ => none

/-- The key function the constructor resolves: identity by default,
overridden by `args[0]` and then `args[1]` when they are functions. -/
def ctorKeyFn (args : List CtorArg) : JSVal → JSVal :=
  match argIsFn args[1]? with
  | some f => f
  | none =>
    match argIsFn args[0]? with
    | some f => f
    | none => jsId

/-- The root the constructor hands to the returned closure: empty unless
`args[0]` is iterable, in which case each item is inserted in iteration
order with the resolved key function. -/
def ctorTree (args : List CtorArg) : Tree :=
  match args[0]? with
  | some (CtorArg.items xs) => xs.foldl (fun t x => insert t x (ctorKeyFn args)) .nil
  | _ => .nil

/-- Trees reachable through the public handle: starting empty (or from the
constructor's initial inserts, which are instances of the `ins` step) and
applying `insert`/`remove` with the handle's key function.  The side
conditions record the TypeScript types of the surface: inserted values have
`Comparable` keys and `remove` is called with a `Comparable` search key. -/
inductive Reachable (key : JSVal → JSVal) : Tree → Prop where
  | empty : Reachable key .nil
  | ins {t v} : Reachable key t → (key v).isNum = true → Reachable key (insert t v key)
  | rem {t sv} : Reachable key t → sv.isNum = true → Reachable key (remove t sv key)

/-- The true (recomputed) height of a subtree. -/
def realHeight : Tree → Nat
  | .nil => 0
  | .node _ l r _ => 1 + max (realHeight l) (realHeight r)

/-- Every cached height field equals one plus the maximum of the children's
cached height fields. -/
def heightsOk : Tree → Bool
  | .nil => true
  | .node _ l r h => (h == 1 + max (hgt l) (hgt r)) && heightsOk l && heightsOk r

/-- Every node's cached balance factor is in `[-1, 1]`. -/
def balancedH : Tree → Bool
  | .nil => true
  | .node _ l r _ =>
      decide (hgt l ≤ hgt r + 1) && decide (hgt r ≤ hgt l + 1) && balancedH l && balancedH r

/-- Every cached height field equals one plus the maximum of the children's
true subtree heights. -/
def heightCacheOk : Tree → Bool
  | .nil => true
  | .node _ l r h =>
      (h == 1 + max (realHeight l) (realHeight r)) && heightCacheOk l && heightCacheOk r

/-- At every node the true heights of the two subtrees differ by at most
one. -/
def balancedReal : Tree → Bool
  | .nil => true
  | .node _ l r _ =>
      decide (realHeight l ≤ realHeight r + 1) && decide (realHeight r ≤ realHeight l + 1) &&
      balancedReal l && balancedReal r

/-- The numeric key of a value under a key function (junk 0 for an object
key, which well-typed usage never produces). -/
def keyNum (key : JSVal → JSVal) (v : JSVal) : Int :=
  match key v with
  | .num n => n
  | .obj _ _ => 0

/-- Whether a list of values has strictly increasing keys under a key
function (each element's key is less than its successor's). -/
def strictAsc (key : JSVal → JSVal) : List JSVal → Bool
  | [] => true
  | [_] => true
  | a :: b :: rest => decide (keyNum key a < keyNum key b) && strictAsc key (b :: rest)

/-- A key function extracting the `k` field of an object (and the identity
on numbers): a well-typed `Key<T>` of the source, `T` being an object type. -/
def keyByK : JSVal → JSVal
  | .num n => .num n
  | .obj k _ => .num k

/-- An object value with key field `k` and payload 0. -/
def objv (k : Int) : JSVal := .obj k 0

/-- The tree the public handle holds after constructing with key function
`keyByK` and inserting object values with keys 2, 1, 4, 3 in that order. -/
def bugBase : Tree :=
  [objv 2, objv 1, objv 4, objv 3].foldl (fun t x => insert t x keyByK) .nil

/-- The tree after additionally calling `remove(2)` on the handle. -/
def bugAfterRemove2 : Tree := remove bugBase (.num 2) keyByK

/-- The tree after additionally calling `remove(3)` on the handle. -/
def bugAfterRemove3 : Tree := remove bugAfterRemove2 (.num 3) keyByK

/-- The in-order list of values has pairwise non-decreasing keys. -/
def sortedKeys (key : JSVal → JSVal) (t : Tree) : Prop :=
  List.Pairwise (fun a b => keyNum key a ≤ keyNum key b) (traverse t)

/-- Every value stored in the tree has a comparable (numeric) key: the
guarantee the TypeScript type of `Key<T>` provides. -/
def KeysNumP (key : JSVal → JSVal) (t : Tree) : Prop :=
  ∀ v ∈ traverse t, (key v).isNum = true

/-- Safety of `insert`'s rebalancing at one node, phrased on the rebuilt
node's children `l'`, `r'`: whenever a branch of `balanceAfterInsert` is
entered, every unguarded access (`node.left.val`, the rotated node's
required child, the inner rotation's required child) hits a present node. -/
def balInsSafe (key : JSVal → JSVal) (w : JSVal) (l' r' : Tree) : Prop :=
  (1 < (hgt l' : Int) - (hgt r' : Int) →
    l' ≠ .nil ∧
    (jsLt (key w) (key (rootVal l')) = false →
      rightChild l' ≠ .nil ∧ leftRotate l' ≠ .nil)) ∧
  ((hgt l' : Int) - (hgt r' : Int) < -1 →
    r' ≠ .nil ∧
    (jsGt (key w) (key (rootVal r')) = false →
      leftChild r' ≠ .nil ∧ rightRotate r' ≠ .nil))

/-- Safety of every rebalancing step performed during `insert t w key`:
at each recursion level the rebalance's unguarded accesses are to present
nodes. -/
def insSafe (key : JSVal → JSVal) (w : JSVal) : Tree → Prop
  | .nil => True
  | .node v l r _ =>
    (jsLt (key w) (key v) = true → insSafe key w l) ∧
    (jsGt (key w) (key v) = true → insSafe key w r) ∧
    balInsSafe key w
      (if jsLt (key w) (key v) then insert l w key else l)
      (if jsGt (key w) (key v) then insert r w key else r)

/-- Safety of `remove`'s rebalancing at one node with updated children
`l`, `r`: each rotation invoked (including the inner one of a double
rotation) is applied to a node whose required child is present. -/
def balRemSafe (l r : Tree) : Prop :=
  (1 < (hgt l : Int) - (hgt r : Int) →
    l ≠ .nil ∧ (balanceFactor l < 0 → rightChild l ≠ .nil ∧ leftRotate l ≠ .nil)) ∧
  ((hgt l : Int) - (hgt r : Int) < -1 →
    r ≠ .nil ∧ (0 < balanceFactor r → leftChild r ≠ .nil ∧ rightRotate r ≠ .nil))

/-- Safety of every rebalancing step performed during `remove t sv key`,
including the recursive successor-splice call. -/
def remSafe (key : JSVal → JSVal) : Tree → JSVal → Prop
  | .nil, _ => True
  | .node v l r _, sv =>
    if jsLt sv (key v) then remSafe key l sv ∧ balRemSafe (remove l sv key) r
    else if jsGt sv (key v) then remSafe key r sv ∧ balRemSafe l (remove r sv key)
    else
      match l, r with
      | .nil, _ => True
      | _, .nil => True
      | _, _ =>
        minNodeValue r ≠ .nil ∧
        remSafe key r (rootVal (minNodeValue r)) ∧
        balRemSafe l (remove r (rootVal (minNodeValue r)) key)

theorem reach_bugBase : Reachable keyByK bugBase :=
  Reachable.ins (Reachable.ins (Reachable.ins (Reachable.ins Reachable.empty rfl) rfl) rfl) rfl

theorem reach_bugAfterRemove2 : Reachable keyByK bugAfterRemove2 :=
  Reachable.rem reach_bugBase rfl

theorem reach_bugAfterRemove3 : Reachable keyByK bugAfterRemove3 :=
  Reachable.rem reach_bugAfterRemove2 rfl

/-- C7: for every node whose right child is present, `leftRotate` preserves
the in-order sequence of values, and symmetrically `rightRotate` (left child
present) preserves it; each returns exactly the rotated pair with the two
heights recomputed child before parent (the new parent's cached height is
computed from the new child's freshly recomputed height), all other subtrees
passed through untouched. -/
theorem rotations_preserve_inorder_and_recompute_heights :
    ∀ (v lv rv : JSVal) (l rl rr ll lr r : Tree) (h rh lh : Nat),
      traverse (leftRotate (.node v l (.node rv rl rr rh) h)) =
        traverse (.node v l (.node rv rl rr rh) h) ∧
      leftRotate (.node v l (.node rv rl rr rh) h) =
        .node rv (.node v l rl (1 + max (hgt l) (hgt rl))) rr
          (1 + max (1 + max (hgt l) (hgt rl)) (hgt rr)) ∧
      traverse (rightRotate (.node v (.node lv ll lr lh) r h)) =
        traverse (.node v (.node lv ll lr lh) r h) ∧
      rightRotate (.node v (.node lv ll lr lh) r h) =
        .node lv ll (.node v lr r (1 + max (hgt lr) (hgt r)))
          (1 + max (hgt ll) (1 + max (hgt lr) (hgt r))) := by
  intro v lv rv l rl rr ll lr r h rh lh
  refine ⟨?_, rfl, ?_, rfl⟩ <;> simp [leftRotate, rightRotate, traverse]

/-- C9: constructing from the iterable `[1, 2, 3, 4]` with no key function
resolves the identity key function, populates the tree by inserting each
item in iteration order, and yields ascending traversal `[1, 2, 3, 4]` and
descending traversal `[4, 3, 2, 1]`. -/
theorem ctor_from_iterable_identity_keyed :
    ctorKeyFn [CtorArg.items [.num 1, .num 2, .num 3, .num 4]] = jsId ∧
    ctorTree [CtorArg.items [.num 1, .num 2, .num 3, .num 4]] =
      [JSVal.num 1, JSVal.num 2, JSVal.num 3, JSVal.num 4].foldl
        (fun t x => insert t x jsId) .nil ∧
    traverse (ctorTree [CtorArg.items [.num 1, .num 2, .num 3, .num 4]]) =
      [JSVal.num 1, JSVal.num 2, JSVal.num 3, JSVal.num 4] ∧
    traverseReversed (ctorTree [CtorArg.items [.num 1, .num 2, .num 3, .num 4]]) =
      [JSVal.num 4, JSVal.num 3, JSVal.num 2, JSVal.num 1] :=
  ⟨rfl, rfl, by decide, by decide⟩

/-- C10: calling the constructor with zero arguments is handled: it yields
the empty tree keyed by the identity function, and `insert`, `get`,
`remove` and both traversals on that handle behave exactly as on an empty
identity-keyed tree. -/
theorem ctor_no_args_empty_identity :
    ctorTree [] = .nil ∧ ctorKeyFn [] = jsId ∧
    (∀ x, ctorKeyFn [] x = x) ∧
    (∀ q, get (ctorTree []) (ctorKeyFn []) q = none) ∧
    traverse (ctorTree []) = [] ∧ traverseReversed (ctorTree []) = [] ∧
    (∀ sv, remove (ctorTree []) sv (ctorKeyFn []) = .nil) ∧
    (∀ w, insert (ctorTree []) w (ctorKeyFn []) = createNode w .nil .nil) :=
  ⟨rfl, rfl, fun _ => rfl, fun _ => rfl, rfl, rfl, fun _ => rfl, fun _ => rfl⟩

/-- C2 fails on the code: on the reachable tree obtained by inserting
object values with keys 2, 1, 4, 3 under key function `keyByK` and then
removing key 2 through the handle, the ascending traversal has keys
1, 3, 3 — not strictly increasing (the two-children removal deleted the
node keyed 4 and duplicated the key 3). -/
theorem ascending_traversal_not_strictly_increasing :
    Reachable keyByK bugAfterRemove2 ∧
    traverse bugAfterRemove2 = [objv 1, objv 3, objv 3] ∧
    strictAsc keyByK (traverse bugAfterRemove2) = false :=
  ⟨reach_bugAfterRemove2, by decide, by decide⟩

/-- C3 fails on the code: key 3 was inserted once (value `objv 3`) and then
removed once through the handle, so it is fully removed, yet `get(3)` still
returns the value that was stored under key 3. -/
theorem get_finds_fully_removed_key :
    Reachable keyByK bugAfterRemove3 ∧
    bugAfterRemove3 = remove (remove bugBase (.num 2) keyByK) (.num 3) keyByK ∧
    get bugAfterRemove3 keyByK (.num 3) = some (objv 3) :=
  ⟨reach_bugAfterRemove3, rfl, by decide⟩

/-- C4 fails on the code: on the reachable tree `bugAfterRemove2` the key 3
is present, yet after `remove(3)` a lookup of key 3 still succeeds instead
of returning not-found. -/
theorem get_after_remove_not_notfound :
    Reachable keyByK bugAfterRemove2 ∧
    (∃ x ∈ traverse bugAfterRemove2, keyByK x = .num 3) ∧
    get (remove bugAfterRemove2 (.num 3) keyByK) keyByK (.num 3) ≠ none :=
  ⟨reach_bugAfterRemove2, by decide, by decide⟩

/-- C6 fails on the code: removing key 2 from the reachable tree with keys
1, 2, 3, 4 (object values, two children under the removed node, in-order
successor keyed 3) makes the value keyed 4 disappear and leaves the
successor value present twice, instead of removing exactly the successor
node: the recursive call searches with the successor's value, not its key. -/
theorem successor_splice_removes_wrong_node :
    Reachable keyByK bugBase ∧
    traverse bugBase = [objv 1, objv 2, objv 3, objv 4] ∧
    traverse (remove bugBase (.num 2) keyByK) = [objv 1, objv 3, objv 3] ∧
    objv 4 ∉ traverse (remove bugBase (.num 2) keyByK) ∧
    objv 3 ∈ traverse (remove bugBase (.num 2) keyByK) :=
  ⟨reach_bugBase, by decide, by decide, by decide, by decide⟩

theorem hgt_nil : hgt .nil = 0 := rfl

theorem hgt_node (v : JSVal) (l r : Tree) (h : Nat) : hgt (.node v l r h) = h := rfl

theorem jsGt_eq_false_of_lt {a b : JSVal} (h : jsLt a b = true) : jsGt a b = false := by
  cases a <;> cases b <;> simp_all [jsLt, jsGt]
  omega

theorem jsLt_eq_false_of_gt {a b : JSVal} (h : jsGt a b = true) : jsLt a b = false := by
  cases a <;> cases b <;> simp_all [jsLt, jsGt]
  omega

theorem ne_nil_of_hgt_pos {t : Tree} (h : 0 < hgt t) : t ≠ .nil := by
  cases t with
  | nil => simp [hgt] at h
  | node v l r hh => simp

theorem leftRotate_ne_nil {t : Tree} (h : t ≠ .nil) : leftRotate t ≠ .nil := by
  cases t with
  | nil => exact absurd rfl h
  | node v l r hh =>
    cases r with
    | nil => simp [leftRotate]
    | node rv rl rr rh => simp [leftRotate]

theorem rightRotate_ne_nil {t : Tree} (h : t ≠ .nil) : rightRotate t ≠ .nil := by
  cases t with
  | nil => exact absurd rfl h
  | node v l r hh =>
    cases l with
    | nil => simp [rightRotate]
    | node lv ll lr lh => simp [rightRotate]

theorem traverse_leftRotate (t : Tree) : traverse (leftRotate t) = traverse t := by
  cases t with
  | nil => rfl
  | node v l r hh =>
    cases r with
    | nil => rfl
    | node rv rl rr rh => simp [leftRotate, traverse]

theorem traverse_rightRotate (t : Tree) : traverse (rightRotate t) = traverse t := by
  cases t with
  | nil => rfl
  | node v l r hh =>
    cases l with
    | nil => rfl
    | node lv ll lr lh => simp [rightRotate, traverse]

theorem traverse_balanceAfterInsert (t : Tree) (w : JSVal) (key : JSVal → JSVal) :
    traverse (balanceAfterInsert t w key) = traverse t := by
  cases t with
  | nil => rfl
  | node v l r hh =>
    simp only [balanceAfterInsert]
    split_ifs
    all_goals simp [traverse_leftRotate, traverse_rightRotate, traverse]

theorem traverse_balanceAfterRemove (t : Tree) :
    traverse (balanceAfterRemove t) = traverse t := by
  cases t with
  | nil => rfl
  | node v l r hh =>
    simp only [balanceAfterRemove]
    split_ifs
    all_goals simp [traverse_leftRotate, traverse_rightRotate, traverse]

theorem heightsOk_node_iff {v : JSVal} {l r : Tree} {h : Nat} :
    heightsOk (.node v l r h) = true ↔
      h = 1 + max (hgt l) (hgt r) ∧ heightsOk l = true ∧ heightsOk r = true := by
  simp [heightsOk, Bool.and_eq_true, beq_iff_eq, and_assoc]

theorem balancedH_node_iff {v : JSVal} {l r : Tree} {h : Nat} :
    balancedH (.node v l r h) = true ↔
      hgt l ≤ hgt r + 1 ∧ hgt r ≤ hgt l + 1 ∧ balancedH l = true ∧ balancedH r = true := by
  simp [balancedH, Bool.and_eq_true, decide_eq_true_eq, and_assoc]

theorem balanceFactor_node (v : JSVal) (l r : Tree) (h : Nat) :
    balanceFactor (.node v l r h) = (hgt l : Int) - (hgt r : Int) := rfl

theorem rightRotate_ok (v lv : JSVal) (ll lr r : Tree) (lh h : Nat)
    (h1 : heightsOk ll = true) (h2 : heightsOk lr = true) (h3 : heightsOk r = true)
    (b1 : balancedH ll = true) (b2 : balancedH lr = true) (b3 : balancedH r = true)
    (c1 : hgt lr ≤ hgt r + 1) (c2 : hgt r ≤ hgt lr + 1)
    (c3 : hgt ll ≤ (1 + max (hgt lr) (hgt r)) + 1)
    (c4 : 1 + max (hgt lr) (hgt r) ≤ hgt ll + 1) :
    heightsOk (rightRotate (.node v (.node lv ll lr lh) r h)) = true ∧
    balancedH (rightRotate (.node v (.node lv ll lr lh) r h)) = true ∧
    hgt (rightRotate (.node v (.node lv ll lr lh) r h)) =
      1 + max (hgt ll) (1 + max (hgt lr) (hgt r)) := by
  simp [rightRotate, heightsOk, balancedH, hgt_node, h1, h2, h3, b1, b2, b3]
  omega

theorem leftRotate_ok (v rv : JSVal) (l rl rr : Tree) (rh h : Nat)
    (h1 : heightsOk l = true) (h2 : heightsOk rl = true) (h3 : heightsOk rr = true)
    (b1 : balancedH l = true) (b2 : balancedH rl = true) (b3 : balancedH rr = true)
    (c1 : hgt l ≤ hgt rl + 1) (c2 : hgt rl ≤ hgt l + 1)
    (c3 : hgt rr ≤ (1 + max (hgt l) (hgt rl)) + 1)
    (c4 : 1 + max (hgt l) (hgt rl) ≤ hgt rr + 1) :
    heightsOk (leftRotate (.node v l (.node rv rl rr rh) h)) = true ∧
    balancedH (leftRotate (.node v l (.node rv rl rr rh) h)) = true ∧
    hgt (leftRotate (.node v l (.node rv rl rr rh) h)) =
      1 + max (1 + max (hgt l) (hgt rl)) (hgt rr) := by
  simp [leftRotate, heightsOk, balancedH, hgt_node, h1, h2, h3, b1, b2, b3]
  omega

theorem balanceAfterInsert_spec (key : JSVal → JSVal) (w v : JSVal) (l r : Tree) (h : Nat)
    (hh : h = 1 + max (hgt l) (hgt r))
    (hlOk : heightsOk l = true) (hlB : balancedH l = true)
    (hrOk : heightsOk r = true) (hrB : balancedH r = true)
    (hd1 : hgt l ≤ hgt r + 2) (hd2 : hgt r ≤ hgt l + 2)
    (dirL : hgt l = hgt r + 2 →
      (jsLt (key w) (key (rootVal l)) = true → balanceFactor l = 1) ∧
      (jsLt (key w) (key (rootVal l)) = false → balanceFactor l = -1))
    (dirR : hgt r = hgt l + 2 →
      (jsGt (key w) (key (rootVal r)) = true → balanceFactor r = -1) ∧
      (jsGt (key w) (key (rootVal r)) = false → balanceFactor r = 1)) :
    heightsOk (balanceAfterInsert (.node v l r h) w key) = true ∧
    balancedH (balanceAfterInsert (.node v l r h) w key) = true ∧
    (hgt l ≤ hgt r + 1 → hgt r ≤ hgt l + 1 →
      balanceAfterInsert (.node v l r h) w key = .node v l r h) ∧
    ((hgt l = hgt r + 2 ∨ hgt r = hgt l + 2) →
      hgt (balanceAfterInsert (.node v l r h) w key) = max (hgt l) (hgt r)) := by
  by_cases hbf : (1 : Int) < (hgt l : Int) - (hgt r : Int)
  · have hl2 : hgt l = hgt r + 2 := by omega
    cases l with
    | nil => exact absurd hl2 (by simp [hgt_nil])
    | node lv ll lr lh =>
      obtain ⟨dlt, dlf⟩ := dirL hl2
      obtain ⟨hlh, hllOk, hlrOk⟩ := heightsOk_node_iff.mp hlOk
      obtain ⟨hb1, hb2, hllB, hlrB⟩ := balancedH_node_iff.mp hlB
      have hLh : hgt (Tree.node lv ll lr lh) = lh := rfl
      cases hLt : jsLt (key w) (key (rootVal (Tree.node lv ll lr lh))) with
      | true =>
        have hbal : (hgt ll : Int) - (hgt lr : Int) = 1 := dlt hLt
        have e : balanceAfterInsert (.node v (.node lv ll lr lh) r h) w key
            = rightRotate (.node v (.node lv ll lr lh) r h) := by
          simp only [balanceAfterInsert]
          rw [if_pos hbf, if_pos hLt]
        rw [e]
        obtain ⟨R1, R2, R3⟩ :=
          rightRotate_ok v lv ll lr r lh h hllOk hlrOk hrOk hllB hlrB hrB
            (by omega) (by omega) (by omega) (by omega)
        exact ⟨R1, R2, fun hc _ => absurd hc (by omega), fun _ => by rw [R3]; omega⟩
      | false =>
        have hbal : (hgt ll : Int) - (hgt lr : Int) = -1 := dlf hLt
        cases lr with
        | nil => exact absurd hbal (by simp only [hgt_nil]; omega)
        | node x p q m =>
          obtain ⟨hm, hpOk, hqOk⟩ := heightsOk_node_iff.mp hlrOk
          obtain ⟨hpq1, hpq2, hpB, hqB⟩ := balancedH_node_iff.mp hlrB
          have hM : hgt (Tree.node x p q m) = m := rfl
          have e : balanceAfterInsert (.node v (.node lv ll (.node x p q m) lh) r h) w key
              = rightRotate (.node v
                  (.node x (.node lv ll p (1 + max (hgt ll) (hgt p))) q
                    (1 + max (1 + max (hgt ll) (hgt p)) (hgt q))) r h) := by
            simp only [balanceAfterInsert]
            rw [if_pos hbf, if_neg (by simp [hLt])]
            rfl
          rw [e]
          have hL1Ok : heightsOk (Tree.node lv ll p (1 + max (hgt ll) (hgt p))) = true :=
            heightsOk_node_iff.mpr ⟨rfl, hllOk, hpOk⟩
          have hL1B : balancedH (Tree.node lv ll p (1 + max (hgt ll) (hgt p))) = true :=
            balancedH_node_iff.mpr ⟨by omega, by omega, hllB, hpB⟩
          obtain ⟨R1, R2, R3⟩ :=
            rightRotate_ok v x (Tree.node lv ll p (1 + max (hgt ll) (hgt p))) q r
              (1 + max (1 + max (hgt ll) (hgt p)) (hgt q)) h
              hL1Ok hqOk hrOk hL1B hqB hrB
              (by omega) (by omega) (by simp [hgt_node]; omega) (by simp [hgt_node]; omega)
          exact ⟨R1, R2, fun hc _ => absurd hc (by omega),
            fun _ => by rw [R3]; simp [hgt_node]; omega⟩
  · by_cases hbf2 : (hgt l : Int) - (hgt r : Int) < -1
    · have hr2 : hgt r = hgt l + 2 := by omega
      cases r with
      | nil => exact absurd hr2 (by simp [hgt_nil])
      | node rv rl rr rh =>
        obtain ⟨drt, drf⟩ := dirR hr2
        obtain ⟨hrh, hrlOk, hrrOk⟩ := heightsOk_node_iff.mp hrOk
        obtain ⟨hc1, hc2, hrlB, hrrB⟩ := balancedH_node_iff.mp hrB
        have hRh : hgt (Tree.node rv rl rr rh) = rh := rfl
        cases hGt : jsGt (key w) (key (rootVal (Tree.node rv rl rr rh))) with
        | true =>
          have hbal : (hgt rl : Int) - (hgt rr : Int) = -1 := drt hGt
          have e : balanceAfterInsert (.node v l (.node rv rl rr rh) h) w key
              = leftRotate (.node v l (.node rv rl rr rh) h) := by
            simp only [balanceAfterInsert]
            rw [if_neg hbf, if_pos hbf2, if_pos hGt]
          rw [e]
          obtain ⟨R1, R2, R3⟩ :=
            leftRotate_ok v rv l rl rr rh h hlOk hrlOk hrrOk hlB hrlB hrrB
              (by omega) (by omega) (by omega) (by omega)
          exact ⟨R1, R2, fun _ hc => absurd hc (by omega), fun _ => by rw [R3]; omega⟩
        | false =>
          have hbal : (hgt rl : Int) - (hgt rr : Int) = 1 := drf hGt
          cases rl with
          | nil => exact absurd hbal (by simp only [hgt_nil]; omega)
          | node x p q m =>
            obtain ⟨hm, hpOk, hqOk⟩ := heightsOk_node_iff.mp hrlOk
            obtain ⟨hpq1, hpq2, hpB, hqB⟩ := balancedH_node_iff.mp hrlB
            have hM : hgt (Tree.node x p q m) = m := rfl
            have e : balanceAfterInsert (.node v l (.node rv (.node x p q m) rr rh) h) w key
                = leftRotate (.node v l
                    (.node x p (.node rv q rr (1 + max (hgt q) (hgt rr)))
                      (1 + max (hgt p) (1 + max (hgt q) (hgt rr)))) h) := by
              simp only [balanceAfterInsert]
              rw [if_neg hbf, if_pos hbf2, if_neg (by simp [hGt])]
              rfl
            rw [e]
            have hR1Ok : heightsOk (Tree.node rv q rr (1 + max (hgt q) (hgt rr))) = true :=
              heightsOk_node_iff.mpr ⟨rfl, hqOk, hrrOk⟩
            have hR1B : balancedH (Tree.node rv q rr (1 + max (hgt q) (hgt rr))) = true :=
              balancedH_node_iff.mpr ⟨by omega, by omega, hqB, hrrB⟩
            obtain ⟨R1, R2, R3⟩ :=
              leftRotate_ok v x l p (Tree.node rv q rr (1 + max (hgt q) (hgt rr)))
                (1 + max (hgt p) (1 + max (hgt q) (hgt rr))) h
                hlOk hpOk hR1Ok hlB hpB hR1B
                (by omega) (by omega) (by simp [hgt_node]; omega) (by simp [hgt_node]; omega)
            exact ⟨R1, R2, fun _ hc => absurd hc (by omega),
              fun _ => by rw [R3]; simp [hgt_node]; omega⟩
    · have e : balanceAfterInsert (.node v l r h) w key = .node v l r h := by
        simp only [balanceAfterInsert]
        rw [if_neg hbf, if_neg hbf2]
      rw [e]
      refine ⟨heightsOk_node_iff.mpr ⟨hh, hlOk, hrOk⟩,
        balancedH_node_iff.mpr ⟨by omega, by omega, hlB, hrB⟩,
        fun _ _ => rfl, fun hc => ?_⟩
      exact absurd hc (by omega)

theorem insert_spec (key : JSVal → JSVal) (w : JSVal) :
    ∀ t : Tree, heightsOk t = true → balancedH t = true →
      heightsOk (insert t w key) = true ∧ balancedH (insert t w key) = true ∧
      hgt t ≤ hgt (insert t w key) ∧ hgt (insert t w key) ≤ hgt t + 1 ∧
      (t ≠ .nil → hgt (insert t w key) = hgt t + 1 →
        (jsLt (key w) (key (rootVal (insert t w key))) = true →
          balanceFactor (insert t w key) = 1) ∧
        (jsLt (key w) (key (rootVal (insert t w key))) = false →
          balanceFactor (insert t w key) = -1) ∧
        (jsGt (key w) (key (rootVal (insert t w key))) = true →
          balanceFactor (insert t w key) = -1) ∧
        (jsGt (key w) (key (rootVal (insert t w key))) = false →
          balanceFactor (insert t w key) = 1)) := by
  intro t
  induction t with
  | nil =>
    intro _ _
    exact ⟨rfl, rfl, by simp [insert, createNode, hgt_nil, hgt_node],
      by simp [insert, createNode, hgt_nil, hgt_node], fun hc => absurd rfl hc⟩
  | node v0 l r h0 ihl ihr =>
    intro hOk hB
    obtain ⟨hh0, hlOk, hrOk⟩ := heightsOk_node_iff.mp hOk
    obtain ⟨hb1, hb2, hlB, hrB⟩ := balancedH_node_iff.mp hB
    have hT : hgt (Tree.node v0 l r h0) = h0 := rfl
    cases hcl : jsLt (key w) (key v0) with
    | true =>
      have hcg : jsGt (key w) (key v0) = false := jsGt_eq_false_of_lt hcl
      obtain ⟨ilOk, ilB, il1, il2, ildir⟩ := ihl hlOk hlB
      have e : insert (.node v0 l r h0) w key =
          balanceAfterInsert
            (.node v0 (insert l w key) r (1 + max (hgt (insert l w key)) (hgt r)))
            w key := by
        simp [insert, hcl, hcg]
      have dirL : hgt (insert l w key) = hgt r + 2 →
          (jsLt (key w) (key (rootVal (insert l w key))) = true →
            balanceFactor (insert l w key) = 1) ∧
          (jsLt (key w) (key (rootVal (insert l w key))) = false →
            balanceFactor (insert l w key) = -1) := by
        intro hgrow
        have hlne : l ≠ Tree.nil := ne_nil_of_hgt_pos (by omega)
        obtain ⟨d1, d2, _, _⟩ := ildir hlne (by omega)
        exact ⟨d1, d2⟩
      have dirR : hgt r = hgt (insert l w key) + 2 →
          (jsGt (key w) (key (rootVal r)) = true → balanceFactor r = -1) ∧
          (jsGt (key w) (key (rootVal r)) = false → balanceFactor r = 1) :=
        fun hc => absurd hc (by omega)
      obtain ⟨S1, S2, S3, S4⟩ :=
        balanceAfterInsert_spec key w v0 (insert l w key) r
          (1 + max (hgt (insert l w key)) (hgt r)) rfl ilOk ilB hrOk hrB
          (by omega) (by omega) dirL dirR
      rw [e]
      by_cases hsplit : hgt (insert l w key) ≤ hgt r + 1
      · have e2 := S3 hsplit (by omega)
        rw [e2] at S1 S2
        rw [e2]
        refine ⟨S1, S2, by simp [hgt_node]; omega,
          by simp [hgt_node]; omega, fun _ hgrow => ?_⟩
        rw [hgt_node] at hgrow
        have hbf : (hgt (insert l w key) : Int) - (hgt r : Int) = 1 := by omega
        refine ⟨fun _ => by rw [balanceFactor_node]; omega,
          fun hc => absurd hc (by simp [rootVal, hcl]),
          fun hc => absurd hc (by simp [rootVal, hcg]),
          fun _ => by rw [balanceFactor_node]; omega⟩
      · have hgrow2 : hgt (insert l w key) = hgt r + 2 := by omega
        have e4 := S4 (Or.inl hgrow2)
        refine ⟨S1, S2, by omega, by omega, fun _ hgrow => ?_⟩
        rw [hT] at hgrow
        exact absurd hgrow (by omega)
    | false =>
      cases hcg : jsGt (key w) (key v0) with
      | true =>
        obtain ⟨irOk, irB, ir1, ir2, irdir⟩ := ihr hrOk hrB
        have e : insert (.node v0 l r h0) w key =
            balanceAfterInsert
              (.node v0 l (insert r w key) (1 + max (hgt l) (hgt (insert r w key))))
              w key := by
          simp [insert, hcl, hcg]
        have dirR : hgt (insert r w key) = hgt l + 2 →
            (jsGt (key w) (key (rootVal (insert r w key))) = true →
              balanceFactor (insert r w key) = -1) ∧
            (jsGt (key w) (key (rootVal (insert r w key))) = false →
              balanceFactor (insert r w key) = 1) := by
          intro hgrow
          have hrne : r ≠ Tree.nil := ne_nil_of_hgt_pos (by omega)
          obtain ⟨_, _, d3, d4⟩ := irdir hrne (by omega)
          exact ⟨d3, d4⟩
        have dirL : hgt l = hgt (insert r w key) + 2 →
            (jsLt (key w) (key (rootVal l)) = true → balanceFactor l = 1) ∧
            (jsLt (key w) (key (rootVal l)) = false → balanceFactor l = -1) :=
          fun hc => absurd hc (by omega)
        obtain ⟨S1, S2, S3, S4⟩ :=
          balanceAfterInsert_spec key w v0 l (insert r w key)
            (1 + max (hgt l) (hgt (insert r w key))) rfl hlOk hlB irOk irB
            (by omega) (by omega) dirL dirR
        rw [e]
        by_cases hsplit : hgt (insert r w key) ≤ hgt l + 1
        · have e2 := S3 (by omega) hsplit
          rw [e2] at S1 S2
          rw [e2]
          refine ⟨S1, S2, by simp [hgt_node]; omega,
            by simp [hgt_node]; omega, fun _ hgrow => ?_⟩
          rw [hgt_node] at hgrow
          refine ⟨fun hc => absurd hc (by simp [rootVal, hcl]),
            fun _ => by rw [balanceFactor_node]; omega,
            fun _ => by rw [balanceFactor_node]; omega,
            fun hc => absurd hc (by simp [rootVal, hcg])⟩
        · have hgrow2 : hgt (insert r w key) = hgt l + 2 := by omega
          have e4 := S4 (Or.inr hgrow2)
          refine ⟨S1, S2, by omega, by omega, fun _ hgrow => ?_⟩
          rw [hT] at hgrow
          exact absurd hgrow (by omega)
      | false =>
        have e : insert (.node v0 l r h0) w key =
            balanceAfterInsert (.node v0 l r (1 + max (hgt l) (hgt r))) w key := by
          simp [insert, hcl, hcg]
        have dirL : hgt l = hgt r + 2 →
            (jsLt (key w) (key (rootVal l)) = true → balanceFactor l = 1) ∧
            (jsLt (key w) (key (rootVal l)) = false → balanceFactor l = -1) :=
          fun hc => absurd hc (by omega)
        have dirR : hgt r = hgt l + 2 →
            (jsGt (key w) (key (rootVal r)) = true → balanceFactor r = -1) ∧
            (jsGt (key w) (key (rootVal r)) = false → balanceFactor r = 1) :=
          fun hc => absurd hc (by omega)
        obtain ⟨S1, S2, S3, S4⟩ :=
          balanceAfterInsert_spec key w v0 l r (1 + max (hgt l) (hgt r)) rfl
            hlOk hlB hrOk hrB (by omega) (by omega) dirL dirR
        have e2 := S3 (by omega) (by omega)
        rw [e2] at S1 S2
        rw [e, e2]
        refine ⟨S1, S2, by simp [hgt_node]; omega,
          by simp [hgt_node]; omega, fun _ hgrow => ?_⟩
        rw [hgt_node] at hgrow
        exact absurd hgrow (by omega)

theorem balanceAfterRemove_spec (v : JSVal) (l r : Tree)
    (hlOk : heightsOk l = true) (hlB : balancedH l = true)
    (hrOk : heightsOk r = true) (hrB : balancedH r = true)
    (hd1 : hgt l ≤ hgt r + 2) (hd2 : hgt r ≤ hgt l + 2) :
    heightsOk (balanceAfterRemove (.node v l r (1 + max (hgt l) (hgt r)))) = true ∧
    balancedH (balanceAfterRemove (.node v l r (1 + max (hgt l) (hgt r)))) = true ∧
    (hgt l ≤ hgt r + 1 → hgt r ≤ hgt l + 1 →
      balanceAfterRemove (.node v l r (1 + max (hgt l) (hgt r))) =
        .node v l r (1 + max (hgt l) (hgt r))) ∧
    max (hgt l) (hgt r) ≤ hgt (balanceAfterRemove (.node v l r (1 + max (hgt l) (hgt r)))) ∧
    hgt (balanceAfterRemove (.node v l r (1 + max (hgt l) (hgt r)))) ≤
      1 + max (hgt l) (hgt r) := by
  by_cases hbf : (1 : Int) < (hgt l : Int) - (hgt r : Int)
  · have hl2 : hgt l = hgt r + 2 := by omega
    cases l with
    | nil => exact absurd hl2 (by simp [hgt_nil])
    | node lv ll lr lh =>
      obtain ⟨hlh, hllOk, hlrOk⟩ := heightsOk_node_iff.mp hlOk
      obtain ⟨hb1, hb2, hllB, hlrB⟩ := balancedH_node_iff.mp hlB
      have hLh : hgt (Tree.node lv ll lr lh) = lh := rfl
      by_cases hbl : (0 : Int) ≤ balanceFactor (Tree.node lv ll lr lh)
      · rw [balanceFactor_node] at hbl
        have e : balanceAfterRemove
              (.node v (.node lv ll lr lh) r (1 + max (hgt (Tree.node lv ll lr lh)) (hgt r)))
            = rightRotate (.node v (.node lv ll lr lh) r
                (1 + max (hgt (Tree.node lv ll lr lh)) (hgt r))) := by
          simp only [balanceAfterRemove]
          rw [if_pos hbf, if_pos (by rw [balanceFactor_node]; exact hbl)]
        rw [e]
        obtain ⟨R1, R2, R3⟩ :=
          rightRotate_ok v lv ll lr r lh (1 + max (hgt (Tree.node lv ll lr lh)) (hgt r))
            hllOk hlrOk hrOk hllB hlrB hrB
            (by omega) (by omega) (by omega) (by omega)
        exact ⟨R1, R2, fun hc _ => absurd hc (by omega), by rw [R3]; omega, by rw [R3]; omega⟩
      · rw [balanceFactor_node] at hbl
        cases lr with
        | nil => exact absurd hbl (by simp [hgt_nil])
        | node x p q m =>
          obtain ⟨hm, hpOk, hqOk⟩ := heightsOk_node_iff.mp hlrOk
          obtain ⟨hpq1, hpq2, hpB, hqB⟩ := balancedH_node_iff.mp hlrB
          have hM : hgt (Tree.node x p q m) = m := rfl
          have e : balanceAfterRemove
                (.node v (.node lv ll (.node x p q m) lh) r
                  (1 + max (hgt (Tree.node lv ll (.node x p q m) lh)) (hgt r)))
              = rightRotate (.node v
                  (.node x (.node lv ll p (1 + max (hgt ll) (hgt p))) q
                    (1 + max (1 + max (hgt ll) (hgt p)) (hgt q))) r
                  (1 + max (hgt (Tree.node lv ll (.node x p q m) lh)) (hgt r))) := by
            simp only [balanceAfterRemove]
            rw [if_pos hbf, if_neg (by rw [balanceFactor_node]; omega)]
            rfl
          rw [e]
          have hL1Ok : heightsOk (Tree.node lv ll p (1 + max (hgt ll) (hgt p))) = true :=
            heightsOk_node_iff.mpr ⟨rfl, hllOk, hpOk⟩
          have hL1B : balancedH (Tree.node lv ll p (1 + max (hgt ll) (hgt p))) = true :=
            balancedH_node_iff.mpr ⟨by omega, by omega, hllB, hpB⟩
          obtain ⟨R1, R2, R3⟩ :=
            rightRotate_ok v x (Tree.node lv ll p (1 + max (hgt ll) (hgt p))) q r
              (1 + max (1 + max (hgt ll) (hgt p)) (hgt q))
              (1 + max (hgt (Tree.node lv ll (Tree.node x p q m) lh)) (hgt r))
              hL1Ok hqOk hrOk hL1B hqB hrB
              (by omega) (by omega) (by simp [hgt_node]; omega) (by simp [hgt_node]; omega)
          refine ⟨R1, R2, fun hc _ => absurd hc (by omega), ?_, ?_⟩ <;>
            rw [R3] <;> simp [hgt_node] <;> omega
  · by_cases hbf2 : (hgt l : Int) - (hgt r : Int) < -1
    · have hr2 : hgt r = hgt l + 2 := by omega
      cases r with
      | nil => exact absurd hr2 (by simp [hgt_nil])
      | node rv rl rr rh =>
        obtain ⟨hrh, hrlOk, hrrOk⟩ := heightsOk_node_iff.mp hrOk
        obtain ⟨hc1, hc2, hrlB, hrrB⟩ := balancedH_node_iff.mp hrB
        have hRh : hgt (Tree.node rv rl rr rh) = rh := rfl
        by_cases hbr : balanceFactor (Tree.node rv rl rr rh) ≤ 0
        · rw [balanceFactor_node] at hbr
          have e : balanceAfterRemove
                (.node v l (.node rv rl rr rh) (1 + max (hgt l) (hgt (Tree.node rv rl rr rh))))
              = leftRotate (.node v l (.node rv rl rr rh)
                  (1 + max (hgt l) (hgt (Tree.node rv rl rr rh)))) := by
            simp only [balanceAfterRemove]
            rw [if_neg hbf, if_pos hbf2, if_pos (by rw [balanceFactor_node]; exact hbr)]
          rw [e]
          obtain ⟨R1, R2, R3⟩ :=
            leftRotate_ok v rv l rl rr rh (1 + max (hgt l) (hgt (Tree.node rv rl rr rh)))
              hlOk hrlOk hrrOk hlB hrlB hrrB
              (by omega) (by omega) (by omega) (by omega)
          exact ⟨R1, R2, fun _ hc => absurd hc (by omega), by rw [R3]; omega, by rw [R3]; omega⟩
        · rw [balanceFactor_node] at hbr
          cases rl with
          | nil => exact absurd hbr (by simp [hgt_nil])
          | node x p q m =>
            obtain ⟨hm, hpOk, hqOk⟩ := heightsOk_node_iff.mp hrlOk
            obtain ⟨hpq1, hpq2, hpB, hqB⟩ := balancedH_node_iff.mp hrlB
            have hM : hgt (Tree.node x p q m) = m := rfl
            have e : balanceAfterRemove
                  (.node v l (.node rv (.node x p q m) rr rh)
                    (1 + max (hgt l) (hgt (Tree.node rv (.node x p q m) rr rh))))
                = leftRotate (.node v l
                    (.node x p (.node rv q rr (1 + max (hgt q) (hgt rr)))
                      (1 + max (hgt p) (1 + max (hgt q) (hgt rr))))
                    (1 + max (hgt l) (hgt (Tree.node rv (.node x p q m) rr rh)))) := by
              simp only [balanceAfterRemove]
              rw [if_neg hbf, if_pos hbf2, if_neg (by rw [balanceFactor_node]; omega)]
              rfl
            rw [e]
            have hR1Ok : heightsOk (Tree.node rv q rr (1 + max (hgt q) (hgt rr))) = true :=
              heightsOk_node_iff.mpr ⟨rfl, hqOk, hrrOk⟩
            have hR1B : balancedH (Tree.node rv q rr (1 + max (hgt q) (hgt rr))) = true :=
              balancedH_node_iff.mpr ⟨by omega, by omega, hqB, hrrB⟩
            obtain ⟨R1, R2, R3⟩ :=
              leftRotate_ok v x l p (Tree.node rv q rr (1 + max (hgt q) (hgt rr)))
                (1 + max (hgt p) (1 + max (hgt q) (hgt rr)))
                (1 + max (hgt l) (hgt (Tree.node rv (Tree.node x p q m) rr rh)))
                hlOk hpOk hR1Ok hlB hpB hR1B
                (by omega) (by omega) (by simp [hgt_node]; omega) (by simp [hgt_node]; omega)
            refine ⟨R1, R2, fun _ hc => absurd hc (by omega), ?_, ?_⟩ <;>
              rw [R3] <;> simp [hgt_node] <;> omega
    · have e : balanceAfterRemove (.node v l r (1 + max (hgt l) (hgt r)))
          = .node v l r (1 + max (hgt l) (hgt r)) := by
        simp only [balanceAfterRemove]
        rw [if_neg hbf, if_neg hbf2]
      rw [e]
      exact ⟨heightsOk_node_iff.mpr ⟨rfl, hlOk, hrOk⟩,
        balancedH_node_iff.mpr ⟨by omega, by omega, hlB, hrB⟩,
        fun _ _ => rfl, by simp [hgt_node], by simp [hgt_node]⟩

theorem remove_spec (key : JSVal → JSVal) :
    ∀ (t : Tree) (sv : JSVal), heightsOk t = true → balancedH t = true →
      heightsOk (remove t sv key) = true ∧ balancedH (remove t sv key) = true ∧
      hgt (remove t sv key) ≤ hgt t ∧ hgt t ≤ hgt (remove t sv key) + 1 := by
  intro t
  induction t with
  | nil =>
    intro sv _ _
    exact ⟨rfl, rfl, Nat.le_refl _, by simp [remove, hgt_nil]⟩
  | node v0 l r h0 ihl ihr =>
    intro sv hOk hB
    obtain ⟨hh0, hlOk, hrOk⟩ := heightsOk_node_iff.mp hOk
    obtain ⟨hb1, hb2, hlB, hrB⟩ := balancedH_node_iff.mp hB
    have hT : hgt (Tree.node v0 l r h0) = h0 := rfl
    cases hcl : jsLt sv (key v0) with
    | true =>
      obtain ⟨rlOk, rlB, rl1, rl2⟩ := ihl sv hlOk hlB
      have e : remove (.node v0 l r h0) sv key =
          balanceAfterRemove
            (.node v0 (remove l sv key) r (1 + max (hgt (remove l sv key)) (hgt r))) := by
        simp [remove, hcl]
      obtain ⟨S1, S2, S3, S4, S5⟩ :=
        balanceAfterRemove_spec v0 (remove l sv key) r rlOk rlB hrOk hrB
          (by omega) (by omega)
      rw [e]
      by_cases hsp : hgt r ≤ hgt (remove l sv key) + 1
      · have e2 := S3 (by omega) hsp
        rw [e2]
        exact ⟨e2 ▸ S1, e2 ▸ S2, by simp [hgt_node]; omega, by simp [hgt_node]; omega⟩
      · exact ⟨S1, S2, by omega, by omega⟩
    | false =>
      cases hcg : jsGt sv (key v0) with
      | true =>
        obtain ⟨rrOk, rrB, rr1, rr2⟩ := ihr sv hrOk hrB
        have e : remove (.node v0 l r h0) sv key =
            balanceAfterRemove
              (.node v0 l (remove r sv key) (1 + max (hgt l) (hgt (remove r sv key)))) := by
          simp [remove, hcl, hcg]
        obtain ⟨S1, S2, S3, S4, S5⟩ :=
          balanceAfterRemove_spec v0 l (remove r sv key) hlOk hlB rrOk rrB
            (by omega) (by omega)
        rw [e]
        by_cases hsp : hgt (remove r sv key) + 1 < hgt l
        · exact ⟨S1, S2, by omega, by omega⟩
        · have e2 := S3 (by omega) (by omega)
          rw [e2]
          exact ⟨e2 ▸ S1, e2 ▸ S2, by simp [hgt_node]; omega, by simp [hgt_node]; omega⟩
      | false =>
        cases l with
        | nil =>
          have e : remove (.node v0 Tree.nil r h0) sv key = r := by
            simp [remove, hcl, hcg]
          rw [e]
          simp only [hgt_nil] at hh0
          refine ⟨hrOk, hrB, ?_, ?_⟩ <;> simp only [hgt_node] <;> omega
        | node lv ll lr lh =>
          cases r with
          | nil =>
            have e : remove (.node v0 (.node lv ll lr lh) Tree.nil h0) sv key =
                .node lv ll lr lh := by
              simp [remove, hcl, hcg]
            rw [e]
            simp only [hgt_nil] at hh0
            refine ⟨hlOk, hlB, ?_, ?_⟩ <;> simp only [hgt_node] at * <;> omega
          | node rv rl rr rh =>
            obtain ⟨rrOk, rrB, rr1, rr2⟩ :=
              ihr (rootVal (minNodeValue (Tree.node rv rl rr rh))) hrOk hrB
            have e : remove (.node v0 (.node lv ll lr lh) (.node rv rl rr rh) h0) sv key =
                balanceAfterRemove
                  (.node (rootVal (minNodeValue (Tree.node rv rl rr rh)))
                    (.node lv ll lr lh)
                    (remove (Tree.node rv rl rr rh)
                      (rootVal (minNodeValue (Tree.node rv rl rr rh))) key)
                    (1 + max (hgt (Tree.node lv ll lr lh))
                      (hgt (remove (Tree.node rv rl rr rh)
                        (rootVal (minNodeValue (Tree.node rv rl rr rh))) key)))) := by
              simp [remove, hcl, hcg]
            obtain ⟨S1, S2, S3, S4, S5⟩ :=
              balanceAfterRemove_spec (rootVal (minNodeValue (Tree.node rv rl rr rh)))
                (Tree.node lv ll lr lh)
                (remove (Tree.node rv rl rr rh)
                  (rootVal (minNodeValue (Tree.node rv rl rr rh))) key)
                hlOk hlB rrOk rrB (by omega) (by omega)
            rw [e]
            by_cases hsp : hgt (remove (Tree.node rv rl rr rh)
                (rootVal (minNodeValue (Tree.node rv rl rr rh))) key) + 1 <
                hgt (Tree.node lv ll lr lh)
            · refine ⟨S1, S2, ?_, ?_⟩ <;> simp only [hgt_node] at * <;> omega
            · have e2 := S3 (by omega) (by omega)
              rw [e2]
              refine ⟨e2 ▸ S1, e2 ▸ S2, ?_, ?_⟩ <;> simp only [hgt_node] at * <;> omega

theorem reachable_hb (key : JSVal → JSVal) {t : Tree} (h : Reachable key t) :
    heightsOk t = true ∧ balancedH t = true := by
  induction h with
  | empty => exact ⟨rfl, rfl⟩
  | ins _ _ ih =>
    obtain ⟨a, b⟩ := ih
    obtain ⟨c, d, _⟩ := insert_spec key _ _ a b
    exact ⟨c, d⟩
  | rem _ _ ih =>
    obtain ⟨a, b⟩ := ih
    obtain ⟨c, d, _⟩ := remove_spec key _ _ a b
    exact ⟨c, d⟩

theorem hgt_eq_realHeight {t : Tree} (h : heightsOk t = true) : hgt t = realHeight t := by
  induction t with
  | nil => rfl
  | node v l r hh ihl ihr =>
    obtain ⟨e, hl, hr⟩ := heightsOk_node_iff.mp h
    simp [realHeight, hgt_node, e, ihl hl, ihr hr]

theorem heightCacheOk_of_heightsOk {t : Tree} (h : heightsOk t = true) :
    heightCacheOk t = true := by
  induction t with
  | nil => rfl
  | node v l r hh ihl ihr =>
    obtain ⟨e, hl, hr⟩ := heightsOk_node_iff.mp h
    simp only [heightCacheOk, Bool.and_eq_true, beq_iff_eq]
    exact ⟨⟨by rw [e, hgt_eq_realHeight hl, hgt_eq_realHeight hr], ihl hl⟩, ihr hr⟩

theorem balancedReal_of_balancedH {t : Tree} (h : heightsOk t = true)
    (b : balancedH t = true) : balancedReal t = true := by
  induction t with
  | nil => rfl
  | node v l r hh ihl ihr =>
    obtain ⟨e, hl, hr⟩ := heightsOk_node_iff.mp h
    obtain ⟨b1, b2, bl, br⟩ := balancedH_node_iff.mp b
    simp only [balancedReal, Bool.and_eq_true, decide_eq_true_eq]
    rw [← hgt_eq_realHeight hl, ← hgt_eq_realHeight hr]
    exact ⟨⟨⟨b1, b2⟩, ihl hl bl⟩, ihr hr br⟩

/-- C1: after any finite sequence of inserts and removes through the public
handle, starting from the empty tree, every node's subtrees have true
heights differing by at most one, and every node's cached height field
equals one plus the maximum of its subtrees' true heights. -/
theorem reachable_avl_invariants (key : JSVal → JSVal) (t : Tree)
    (h : Reachable key t) :
    balancedReal t = true ∧ heightCacheOk t = true := by
  obtain ⟨a, b⟩ := reachable_hb key h
  exact ⟨balancedReal_of_balancedH a b, heightCacheOk_of_heightsOk a⟩

theorem reachable_avl_invariants_witness :
    balancedReal (remove (insert (insert (insert .nil (.num 2) jsId) (.num 1) jsId)
      (.num 3) jsId) (.num 2) jsId) = true ∧
    heightCacheOk (remove (insert (insert (insert .nil (.num 2) jsId) (.num 1) jsId)
      (.num 3) jsId) (.num 2) jsId) = true :=
  reachable_avl_invariants jsId _
    (Reachable.rem
      (Reachable.ins (Reachable.ins (Reachable.ins Reachable.empty rfl) rfl) rfl) rfl)

theorem traverse_minNodeValue_head :
    ∀ t : Tree, t ≠ .nil → ∃ rest, traverse t = rootVal (minNodeValue t) :: rest := by
  intro t
  induction t with
  | nil => intro hc; exact absurd rfl hc
  | node v l r hh ihl _ =>
    intro _
    cases l with
    | nil => exact ⟨traverse r, rfl⟩
    | node lv ll lr lh =>
      obtain ⟨rest, hrest⟩ := ihl (by simp)
      refine ⟨rest ++ v :: traverse r, ?_⟩
      have e1 : traverse (Tree.node v (Tree.node lv ll lr lh) r hh) =
          traverse (Tree.node lv ll lr lh) ++ v :: traverse r := rfl
      have e2 : minNodeValue (Tree.node v (Tree.node lv ll lr lh) r hh) =
          minNodeValue (Tree.node lv ll lr lh) := rfl
      rw [e1, e2, hrest]
      rfl

theorem mem_traverse_insert (key : JSVal → JSVal) (w : JSVal) :
    ∀ t x, x ∈ traverse (insert t w key) → x ∈ traverse t ∨ x = w := by
  intro t
  induction t with
  | nil =>
    intro x hx
    simp [insert, createNode, traverse] at hx
    exact Or.inr hx
  | node v l r hh ihl ihr =>
    intro x hx
    cases hcl : jsLt (key w) (key v) with
    | true =>
      have hcg : jsGt (key w) (key v) = false := jsGt_eq_false_of_lt hcl
      have e : traverse (insert (.node v l r hh) w key) =
          traverse (insert l w key) ++ v :: traverse r := by
        simp [insert, hcl, hcg, traverse_balanceAfterInsert, traverse]
      rw [e] at hx
      simp only [List.mem_append, List.mem_cons] at hx
      rcases hx with hx | hx | hx
      · rcases ihl x hx with hm | hm
        · exact Or.inl (by simp [traverse, hm])
        · exact Or.inr hm
      · exact Or.inl (by simp [traverse, hx])
      · exact Or.inl (by simp [traverse, hx])
    | false =>
      cases hcg : jsGt (key w) (key v) with
      | true =>
        have e : traverse (insert (.node v l r hh) w key) =
            traverse l ++ v :: traverse (insert r w key) := by
          simp [insert, hcl, hcg, traverse_balanceAfterInsert, traverse]
        rw [e] at hx
        simp only [List.mem_append, List.mem_cons] at hx
        rcases hx with hx | hx | hx
        · exact Or.inl (by simp [traverse, hx])
        · exact Or.inl (by simp [traverse, hx])
        · rcases ihr x hx with hm | hm
          · exact Or.inl (by simp [traverse, hm])
          · exact Or.inr hm
      | false =>
        have e : traverse (insert (.node v l r hh) w key) =
            traverse l ++ v :: traverse r := by
          simp [insert, hcl, hcg, traverse_balanceAfterInsert, traverse]
        rw [e] at hx
        exact Or.inl (by simp [traverse, hx])

theorem mem_traverse_remove (key : JSVal → JSVal) :
    ∀ t sv x, x ∈ traverse (remove t sv key) → x ∈ traverse t := by
  intro t
  induction t with
  | nil => intro sv x hx; exact hx
  | node v l r hh ihl ihr =>
    intro sv x hx
    cases hcl : jsLt sv (key v) with
    | true =>
      have e : traverse (remove (.node v l r hh) sv key) =
          traverse (remove l sv key) ++ v :: traverse r := by
        simp [remove, hcl, traverse_balanceAfterRemove, traverse]
      rw [e] at hx
      simp only [List.mem_append, List.mem_cons] at hx
      rcases hx with hx | hx | hx
      · exact by simp [traverse, ihl sv x hx]
      · exact by simp [traverse, hx]
      · exact by simp [traverse, hx]
    | false =>
      cases hcg : jsGt sv (key v) with
      | true =>
        have e : traverse (remove (.node v l r hh) sv key) =
            traverse l ++ v :: traverse (remove r sv key) := by
          simp [remove, hcl, hcg, traverse_balanceAfterRemove, traverse]
        rw [e] at hx
        simp only [List.mem_append, List.mem_cons] at hx
        rcases hx with hx | hx | hx
        · exact by simp [traverse, hx]
        · exact by simp [traverse, hx]
        · exact by simp [traverse, ihr sv x hx]
      | false =>
        cases l with
        | nil =>
          have e : remove (.node v Tree.nil r hh) sv key = r := by
            simp [remove, hcl, hcg]
          rw [e] at hx
          simp [traverse, hx]
        | node lv ll lr lh =>
          cases r with
          | nil =>
            have e : remove (.node v (.node lv ll lr lh) Tree.nil hh) sv key =
                .node lv ll lr lh := by
              simp [remove, hcl, hcg]
            rw [e] at hx
            simp only [traverse, List.mem_append, List.mem_cons] at hx ⊢
            tauto
          | node rv rl rr rh =>
            have e : traverse (remove (.node v (.node lv ll lr lh) (.node rv rl rr rh) hh) sv key) =
                traverse (.node lv ll lr lh) ++
                  rootVal (minNodeValue (.node rv rl rr rh)) ::
                  traverse (remove (.node rv rl rr rh)
                    (rootVal (minNodeValue (.node rv rl rr rh))) key) := by
              simp [remove, hcl, hcg, traverse_balanceAfterRemove, traverse]
            rw [e] at hx
            simp only [List.mem_append, List.mem_cons] at hx
            rcases hx with hx | hx | hx
            · simp only [traverse, List.mem_append, List.mem_cons] at hx ⊢
              tauto
            · obtain ⟨rest, hrest⟩ :=
                traverse_minNodeValue_head (Tree.node rv rl rr rh) (by simp)
              have hm : x ∈ traverse (Tree.node rv rl rr rh) := by rw [hrest, hx]; simp
              simp only [traverse, List.mem_append, List.mem_cons] at hm ⊢
              tauto
            · have hm := ihr _ x hx
              simp only [traverse, List.mem_append, List.mem_cons] at hm ⊢
              tauto

theorem jsLt_parts {x y : JSVal} (h : jsLt x y = true) :
    ∃ a b, x = .num a ∧ y = .num b ∧ a < b := by
  cases x with
  | num a =>
    cases y with
    | num b => exact ⟨a, b, rfl, rfl, by simpa [jsLt] using h⟩
    | obj k p => simp [jsLt] at h
  | obj k p => cases y <;> simp [jsLt] at h

theorem jsGt_parts {x y : JSVal} (h : jsGt x y = true) :
    ∃ a b, x = .num a ∧ y = .num b ∧ b < a := by
  cases x with
  | num a =>
    cases y with
    | num b => exact ⟨a, b, rfl, rfl, by simpa [jsGt] using h⟩
    | obj k p => simp [jsGt] at h
  | obj k p => cases y <;> simp [jsGt] at h

theorem keyNum_eq {key : JSVal → JSVal} {v : JSVal} {a : Int}
    (h : key v = .num a) : keyNum key v = a := by
  simp [keyNum, h]

theorem sortedKeys_node_iff {key : JSVal → JSVal} {v : JSVal} {l r : Tree} {hh : Nat} :
    sortedKeys key (.node v l r hh) ↔
      sortedKeys key l ∧ sortedKeys key r ∧
      (∀ x ∈ traverse l, keyNum key x ≤ keyNum key v) ∧
      (∀ y ∈ traverse r, keyNum key v ≤ keyNum key y) ∧
      (∀ x ∈ traverse l, ∀ y ∈ traverse r, keyNum key x ≤ keyNum key y) := by
  simp only [sortedKeys, traverse, List.pairwise_append, List.pairwise_cons, List.mem_cons]
  constructor
  · rintro ⟨h1, ⟨h2, h3⟩, h4⟩
    exact ⟨h1, h3, fun x hx => h4 x hx v (Or.inl rfl), h2,
      fun x hx y hy => h4 x hx y (Or.inr hy)⟩
  · rintro ⟨h1, h2, h3, h4, h5⟩
    refine ⟨h1, ⟨h4, h2⟩, fun x hx y hy => ?_⟩
    rcases hy with rfl | hy
    · exact h3 x hx
    · exact h5 x hx y hy

theorem insert_sorted (key : JSVal → JSVal) (w : JSVal) :
    ∀ t, sortedKeys key t → sortedKeys key (insert t w key) := by
  intro t
  induction t with
  | nil =>
    intro _
    simp [sortedKeys, insert, createNode, traverse]
  | node v l r hh ihl ihr =>
    intro hs
    obtain ⟨sl, sr, la, rb, cross⟩ := sortedKeys_node_iff.mp hs
    cases hcl : jsLt (key w) (key v) with
    | true =>
      obtain ⟨a, b, ew, ev, hab⟩ := jsLt_parts hcl
      have hcg := jsGt_eq_false_of_lt hcl
      have e : traverse (insert (.node v l r hh) w key) =
          traverse (insert l w key) ++ v :: traverse r := by
        simp [insert, hcl, hcg, traverse_balanceAfterInsert, traverse]
      unfold sortedKeys
      rw [e, List.pairwise_append]
      refine ⟨ihl sl, List.pairwise_cons.mpr ⟨rb, sr⟩, ?_⟩
      intro x hx y hy
      rcases mem_traverse_insert key w l x hx with hm | rfl
      · rcases List.mem_cons.mp hy with rfl | hy'
        · exact la x hm
        · exact cross x hm y hy'
      · rcases List.mem_cons.mp hy with rfl | hy'
        · rw [keyNum_eq ew, keyNum_eq ev]
          omega
        · have hvy := rb y hy'
          rw [keyNum_eq ev] at hvy
          rw [keyNum_eq ew]
          omega
    | false =>
      cases hcg : jsGt (key w) (key v) with
      | true =>
        obtain ⟨a, b, ew, ev, hab⟩ := jsGt_parts hcg
        have e : traverse (insert (.node v l r hh) w key) =
            traverse l ++ v :: traverse (insert r w key) := by
          simp [insert, hcl, hcg, traverse_balanceAfterInsert, traverse]
        unfold sortedKeys
        rw [e, List.pairwise_append]
        refine ⟨sl, List.pairwise_cons.mpr ⟨?_, ihr sr⟩, ?_⟩
        · intro y hy
          rcases mem_traverse_insert key w r y hy with hm | rfl
          · exact rb y hm
          · rw [keyNum_eq ew, keyNum_eq ev]
            omega
        · intro x hx y hy
          rcases List.mem_cons.mp hy with rfl | hy'
          · exact la x hx
          · rcases mem_traverse_insert key w r y hy' with hm | rfl
            · exact cross x hx y hm
            · have hxv := la x hx
              rw [keyNum_eq ev] at hxv
              rw [keyNum_eq ew]
              omega
      | false =>
        have e : traverse (insert (.node v l r hh) w key) =
            traverse l ++ v :: traverse r := by
          simp [insert, hcl, hcg, traverse_balanceAfterInsert, traverse]
        unfold sortedKeys
        rw [e]
        exact hs

theorem remove_sorted (key : JSVal → JSVal) :
    ∀ t sv, sortedKeys key t → sortedKeys key (remove t sv key) := by
  intro t
  induction t with
  | nil => intro sv hs; exact hs
  | node v l r hh ihl ihr =>
    intro sv hs
    obtain ⟨sl, sr, la, rb, cross⟩ := sortedKeys_node_iff.mp hs
    cases hcl : jsLt sv (key v) with
    | true =>
      have e : traverse (remove (.node v l r hh) sv key) =
          traverse (remove l sv key) ++ v :: traverse r := by
        simp [remove, hcl, traverse_balanceAfterRemove, traverse]
      unfold sortedKeys
      rw [e, List.pairwise_append]
      refine ⟨ihl sv sl, List.pairwise_cons.mpr ⟨rb, sr⟩, ?_⟩
      intro x hx y hy
      have hm := mem_traverse_remove key l sv x hx
      rcases List.mem_cons.mp hy with rfl | hy'
      · exact la x hm
      · exact cross x hm y hy'
    | false =>
      cases hcg : jsGt sv (key v) with
      | true =>
        have e : traverse (remove (.node v l r hh) sv key) =
            traverse l ++ v :: traverse (remove r sv key) := by
          simp [remove, hcl, hcg, traverse_balanceAfterRemove, traverse]
        unfold sortedKeys
        rw [e, List.pairwise_append]
        refine ⟨sl, List.pairwise_cons.mpr
          ⟨fun y hy => rb y (mem_traverse_remove key r sv y hy), ihr sv sr⟩, ?_⟩
        intro x hx y hy
        rcases List.mem_cons.mp hy with rfl | hy'
        · exact la x hx
        · exact cross x hx y (mem_traverse_remove key r sv y hy')
      | false =>
        cases l with
        | nil =>
          have e : remove (.node v Tree.nil r hh) sv key = r := by
            simp [remove, hcl, hcg]
          rw [e]
          exact sr
        | node lv ll lr lh =>
          cases r with
          | nil =>
            have e : remove (.node v (.node lv ll lr lh) Tree.nil hh) sv key =
                .node lv ll lr lh := by
              simp [remove, hcl, hcg]
            rw [e]
            exact sl
          | node rv rl rr rh =>
            obtain ⟨rest, hrest⟩ :=
              traverse_minNodeValue_head (Tree.node rv rl rr rh) (by simp)
            have htv : rootVal (minNodeValue (Tree.node rv rl rr rh)) ∈
                traverse (Tree.node rv rl rr rh) := by
              rw [hrest]; simp
            have stv : ∀ y ∈ traverse (Tree.node rv rl rr rh),
                keyNum key (rootVal (minNodeValue (Tree.node rv rl rr rh))) ≤
                  keyNum key y := by
              intro y hy
              have sr2 : List.Pairwise (fun a b => keyNum key a ≤ keyNum key b)
                  (traverse (Tree.node rv rl rr rh)) := sr
              rw [hrest] at hy sr2
              rcases List.mem_cons.mp hy with rfl | hy'
              · exact le_refl _
              · exact (List.pairwise_cons.mp sr2).1 y hy'
            have e : traverse (remove (.node v (.node lv ll lr lh)
                (.node rv rl rr rh) hh) sv key) =
                traverse (.node lv ll lr lh) ++
                  rootVal (minNodeValue (.node rv rl rr rh)) ::
                  traverse (remove (.node rv rl rr rh)
                    (rootVal (minNodeValue (.node rv rl rr rh))) key) := by
              simp [remove, hcl, hcg, traverse_balanceAfterRemove, traverse]
            unfold sortedKeys
            rw [e, List.pairwise_append]
            refine ⟨sl, List.pairwise_cons.mpr
              ⟨fun y hy => stv y (mem_traverse_remove key _ _ y hy), ?_⟩, ?_⟩
            · exact ihr _ sr
            · intro x hx y hy
              rcases List.mem_cons.mp hy with rfl | hy'
              · have h1 := la x hx
                have h2 := rb _ htv
                omega
              · exact cross x hx y (mem_traverse_remove key _ _ y hy')

theorem keysNumP_insert {key : JSVal → JSVal} {t : Tree} {w : JSVal}
    (h : KeysNumP key t) (hw : (key w).isNum = true) : KeysNumP key (insert t w key) := by
  intro x hx
  rcases mem_traverse_insert key w t x hx with hm | rfl
  · exact h x hm
  · exact hw

theorem keysNumP_remove {key : JSVal → JSVal} {t : Tree} {sv : JSVal}
    (h : KeysNumP key t) : KeysNumP key (remove t sv key) :=
  fun x hx => h x (mem_traverse_remove key t sv x hx)

theorem reachable_inv (key : JSVal → JSVal) {t : Tree} (h : Reachable key t) :
    heightsOk t = true ∧ balancedH t = true ∧ sortedKeys key t ∧ KeysNumP key t := by
  induction h with
  | empty =>
    exact ⟨rfl, rfl, List.Pairwise.nil, fun x hx => absurd hx (by simp [traverse])⟩
  | ins _ hn ih =>
    obtain ⟨a, b, c, d⟩ := ih
    obtain ⟨a2, b2, _⟩ := insert_spec _ _ _ a b
    exact ⟨a2, b2, insert_sorted _ _ _ c, keysNumP_insert d hn⟩
  | rem _ _ ih =>
    obtain ⟨a, b, c, d⟩ := ih
    obtain ⟨a2, b2, _⟩ := remove_spec _ _ _ a b
    exact ⟨a2, b2, remove_sorted _ _ _ c, keysNumP_remove d⟩

theorem insert_existing_key_noop (key : JSVal → JSVal) (w : JSVal) :
    ∀ t, heightsOk t = true → balancedH t = true → sortedKeys key t →
      (∃ x ∈ traverse t, key x = key w) → insert t w key = t := by
  intro t
  induction t with
  | nil =>
    intro _ _ _ hex
    obtain ⟨x, hx, _⟩ := hex
    exact absurd hx (by simp [traverse])
  | node v l r hh ihl ihr =>
    intro hOk hB hs hex
    obtain ⟨x, hx, hk⟩ := hex
    obtain ⟨hh0, hlOk, hrOk⟩ := heightsOk_node_iff.mp hOk
    obtain ⟨hb1, hb2, hlB, hrB⟩ := balancedH_node_iff.mp hB
    obtain ⟨sl, sr, la, rb, cross⟩ := sortedKeys_node_iff.mp hs
    have hxall : x ∈ traverse l ∨ x = v ∨ x ∈ traverse r := by
      simpa [traverse, List.mem_append, List.mem_cons] using hx
    cases hcl : jsLt (key w) (key v) with
    | true =>
      have hcg := jsGt_eq_false_of_lt hcl
      obtain ⟨a, b, ew, ev, hab⟩ := jsLt_parts hcl
      have hxl : x ∈ traverse l := by
        rcases hxall with hm | rfl | hm
        · exact hm
        · rw [hk, ew] at ev
          exact absurd ev (by simp; omega)
        · have h1 := rb x hm
          rw [keyNum_eq ev, keyNum_eq (hk.trans ew)] at h1
          omega
      have el : insert l w key = l := ihl hlOk hlB sl ⟨x, hxl, hk⟩
      have e : insert (.node v l r hh) w key =
          balanceAfterInsert (.node v l r (1 + max (hgt l) (hgt r))) w key := by
        simp [insert, hcl, hcg, el]
      obtain ⟨_, _, S3, _⟩ :=
        balanceAfterInsert_spec key w v l r (1 + max (hgt l) (hgt r)) rfl
          hlOk hlB hrOk hrB (by omega) (by omega)
          (fun hc => absurd hc (by omega)) (fun hc => absurd hc (by omega))
      rw [e, S3 (by omega) (by omega), hh0]
    | false =>
      cases hcg : jsGt (key w) (key v) with
      | true =>
        obtain ⟨a, b, ew, ev, hab⟩ := jsGt_parts hcg
        have hxr : x ∈ traverse r := by
          rcases hxall with hm | rfl | hm
          · have h1 := la x hm
            rw [keyNum_eq ev, keyNum_eq (hk.trans ew)] at h1
            omega
          · rw [hk, ew] at ev
            exact absurd ev (by simp; omega)
          · exact hm
        have er : insert r w key = r := ihr hrOk hrB sr ⟨x, hxr, hk⟩
        have e : insert (.node v l r hh) w key =
            balanceAfterInsert (.node v l r (1 + max (hgt l) (hgt r))) w key := by
          simp [insert, hcl, hcg, er]
        obtain ⟨_, _, S3, _⟩ :=
          balanceAfterInsert_spec key w v l r (1 + max (hgt l) (hgt r)) rfl
            hlOk hlB hrOk hrB (by omega) (by omega)
            (fun hc => absurd hc (by omega)) (fun hc => absurd hc (by omega))
        rw [e, S3 (by omega) (by omega), hh0]
      | false =>
        have e : insert (.node v l r hh) w key =
            balanceAfterInsert (.node v l r (1 + max (hgt l) (hgt r))) w key := by
          simp [insert, hcl, hcg]
        obtain ⟨_, _, S3, _⟩ :=
          balanceAfterInsert_spec key w v l r (1 + max (hgt l) (hgt r)) rfl
            hlOk hlB hrOk hrB (by omega) (by omega)
            (fun hc => absurd hc (by omega)) (fun hc => absurd hc (by omega))
        rw [e, S3 (by omega) (by omega), hh0]

/-- C5: inserting a value whose key already occurs in a reachable tree
leaves the tree literally unchanged — the existing node and stored value are
untouched, `get` answers exactly as before for every query, and the
traversal length is unchanged; no update, replacement, or conflict signal
occurs. -/
theorem duplicate_key_insert_noop (key : JSVal → JSVal) (t : Tree) (w x q : JSVal)
    (hr : Reachable key t) (hx : x ∈ traverse t) (hk : key x = key w) :
    insert t w key = t ∧
    get (insert t w key) key q = get t key q ∧
    (traverse (insert t w key)).length = (traverse t).length := by
  obtain ⟨a, b, c, _⟩ := reachable_inv key hr
  have e := insert_existing_key_noop key w t a b c ⟨x, hx, hk⟩
  exact ⟨e, by rw [e], by rw [e]⟩

theorem duplicate_key_insert_noop_witness :
    insert (insert .nil (.num 5) jsId) (.num 5) jsId = insert .nil (.num 5) jsId ∧
    get (insert (insert .nil (.num 5) jsId) (.num 5) jsId) jsId (.num 5) =
      get (insert .nil (.num 5) jsId) jsId (.num 5) ∧
    (traverse (insert (insert .nil (.num 5) jsId) (.num 5) jsId)).length =
      (traverse (insert .nil (.num 5) jsId)).length :=
  duplicate_key_insert_noop jsId (insert .nil (.num 5) jsId) (.num 5) (.num 5) (.num 5)
    (Reachable.ins Reachable.empty rfl) (by decide) rfl

theorem rightChild_ne_nil_of_bf_neg {t : Tree} (h : balanceFactor t < 0) :
    rightChild t ≠ .nil ∧ leftRotate t ≠ .nil := by
  cases t with
  | nil => simp [balanceFactor] at h
  | node v l r hh =>
    rw [balanceFactor_node] at h
    cases r with
    | nil => simp [hgt_nil] at h; omega
    | node rv rl rr rh => exact ⟨by simp [rightChild], by simp [leftRotate]⟩

theorem leftChild_ne_nil_of_bf_pos {t : Tree} (h : 0 < balanceFactor t) :
    leftChild t ≠ .nil ∧ rightRotate t ≠ .nil := by
  cases t with
  | nil => simp [balanceFactor] at h
  | node v l r hh =>
    rw [balanceFactor_node] at h
    cases l with
    | nil => simp [hgt_nil] at h; omega
    | node lv ll lr lh => exact ⟨by simp [leftChild], by simp [rightRotate]⟩

theorem minNodeValue_ne_nil : ∀ t : Tree, t ≠ .nil → minNodeValue t ≠ .nil := by
  intro t
  induction t with
  | nil => intro hc; exact absurd rfl hc
  | node v l r hh ihl _ =>
    intro _
    cases l with
    | nil => simp [minNodeValue]
    | node lv ll lr lh =>
      have e : minNodeValue (Tree.node v (Tree.node lv ll lr lh) r hh) =
          minNodeValue (Tree.node lv ll lr lh) := rfl
      rw [e]
      exact ihl (by simp)

theorem insSafe_of_inv (key : JSVal → JSVal) (w : JSVal) :
    ∀ t, heightsOk t = true → balancedH t = true → insSafe key w t := by
  intro t
  induction t with
  | nil => intro _ _; exact trivial
  | node v l r hh ihl ihr =>
    intro hOk hB
    obtain ⟨hh0, hlOk, hrOk⟩ := heightsOk_node_iff.mp hOk
    obtain ⟨hb1, hb2, hlB, hrB⟩ := balancedH_node_iff.mp hB
    cases hcl : jsLt (key w) (key v) with
    | true =>
      have hcg := jsGt_eq_false_of_lt hcl
      obtain ⟨ilOk, ilB, il1, il2, ildir⟩ := insert_spec key w l hlOk hlB
      simp only [insSafe, balInsSafe, hcl, hcg, Bool.false_eq_true, reduceIte]
      refine ⟨fun _ => ihl hlOk hlB, fun hc => absurd hc (by simp), ?_, ?_⟩
      · intro hbf
        have hlne : l ≠ Tree.nil := ne_nil_of_hgt_pos (by omega)
        obtain ⟨_, d2, _, _⟩ := ildir hlne (by omega)
        refine ⟨ne_nil_of_hgt_pos (by omega), fun hLtF => ?_⟩
        exact rightChild_ne_nil_of_bf_neg (by rw [d2 hLtF]; omega)
      · intro hbf
        exact absurd hbf (by omega)
    | false =>
      cases hcg : jsGt (key w) (key v) with
      | true =>
        obtain ⟨irOk, irB, ir1, ir2, irdir⟩ := insert_spec key w r hrOk hrB
        simp only [insSafe, balInsSafe, hcl, hcg, Bool.false_eq_true, reduceIte]
        refine ⟨fun hc => absurd hc (by simp), fun _ => ihr hrOk hrB, ?_, ?_⟩
        · intro hbf
          exact absurd hbf (by omega)
        · intro hbf
          have hrne : r ≠ Tree.nil := ne_nil_of_hgt_pos (by omega)
          obtain ⟨_, _, _, d4⟩ := irdir hrne (by omega)
          refine ⟨ne_nil_of_hgt_pos (by omega), fun hGtF => ?_⟩
          exact leftChild_ne_nil_of_bf_pos (by rw [d4 hGtF]; omega)
      | false =>
        simp only [insSafe, balInsSafe, hcl, hcg, Bool.false_eq_true, reduceIte]
        refine ⟨fun hc => absurd hc (by simp), fun hc => absurd hc (by simp), ?_, ?_⟩
        · intro hbf
          exact absurd hbf (by omega)
        · intro hbf
          exact absurd hbf (by omega)

theorem remSafe_of_inv (key : JSVal → JSVal) :
    ∀ t sv, heightsOk t = true → balancedH t = true → remSafe key t sv := by
  intro t
  induction t with
  | nil => intro sv _ _; exact trivial
  | node v l r hh ihl ihr =>
    intro sv hOk hB
    obtain ⟨hh0, hlOk, hrOk⟩ := heightsOk_node_iff.mp hOk
    obtain ⟨hb1, hb2, hlB, hrB⟩ := balancedH_node_iff.mp hB
    cases hcl : jsLt sv (key v) with
    | true =>
      obtain ⟨rlOk, rlB, rl1, rl2⟩ := remove_spec key l sv hlOk hlB
      simp only [remSafe, balRemSafe, hcl, reduceIte]
      refine ⟨ihl sv hlOk hlB, ?_, ?_⟩
      · intro hbf
        exact absurd hbf (by omega)
      · intro hbf
        exact ⟨ne_nil_of_hgt_pos (by omega), fun hbr => leftChild_ne_nil_of_bf_pos hbr⟩
    | false =>
      cases hcg : jsGt sv (key v) with
      | true =>
        obtain ⟨rrOk, rrB, rr1, rr2⟩ := remove_spec key r sv hrOk hrB
        simp only [remSafe, balRemSafe, hcl, hcg, Bool.false_eq_true, reduceIte]
        refine ⟨ihr sv hrOk hrB, ?_, ?_⟩
        · intro hbf
          exact ⟨ne_nil_of_hgt_pos (by omega), fun hbl => rightChild_ne_nil_of_bf_neg hbl⟩
        · intro hbf
          exact absurd hbf (by omega)
      | false =>
        cases l with
        | nil => simp [remSafe, hcl, hcg]
        | node lv ll lr lh =>
          cases r with
          | nil => simp [remSafe, hcl, hcg]
          | node rv rl rr rh =>
            obtain ⟨rrOk, rrB, rr1, rr2⟩ :=
              remove_spec key (Tree.node rv rl rr rh)
                (rootVal (minNodeValue (Tree.node rv rl rr rh))) hrOk hrB
            simp only [remSafe, balRemSafe, hcl, hcg, Bool.false_eq_true, reduceIte]
            refine ⟨minNodeValue_ne_nil _ (by simp), ihr _ hrOk hrB, ?_, ?_⟩
            · intro hbf
              exact ⟨by simp, fun hbl => rightChild_ne_nil_of_bf_neg hbl⟩
            · intro hbf
              exact absurd hbf (by omega)

/-- C8: on every tree reachable through the public handle, every rotation
the rebalancing logic of `insert` or `remove` invokes (including the inner
rotation of a double rotation) is applied to a node whose required child is
present, and the rebalancing code's unguarded accesses to `node.left` /
`node.right` (such as `node.left.val` in the insert dispatch) never
dereference an absent node. -/
theorem rebalancing_accesses_safe (key : JSVal → JSVal) (t : Tree) (w sv : JSVal)
    (h : Reachable key t) : insSafe key w t ∧ remSafe key t sv := by
  obtain ⟨a, b⟩ := reachable_hb key h
  exact ⟨insSafe_of_inv key w t a b, remSafe_of_inv key t sv a b⟩

theorem rebalancing_accesses_safe_witness :
    insSafe jsId (.num 7) (insert .nil (.num 1) jsId) ∧
    remSafe jsId (insert .nil (.num 1) jsId) (.num 1) :=
  rebalancing_accesses_safe jsId (insert .nil (.num 1) jsId) (.num 7) (.num 1)
    (Reachable.ins Reachable.empty rfl)

end IterableAVL
